import Mathlib

/-!
Verification development for the Wannier90 converter
(`python/triqs_dft_tools/converters/wannier90.py`).

The Python source is shallowly embedded: complex matrices become a shape-
carrying structure `CMatrix` over `ℂ` (mirroring numpy arrays, which carry
their shape), file records become structures over `ℤ`/`ℚ`, and the numerical
routines (`kmesh_build`, `fourier_ham`, `find_rot_mat`, the record-storage
rule of `read_wannier90data`) become Lean functions.  `numpy.linalg.eigh`
is an external library routine and is modelled as an explicit oracle
parameter `EighFn`; theorems that depend on its guarantees state them as
hypotheses.
-/

namespace W90
/-- Tolerance `self._w90zero = 2.e-6` from the converter constructor. -/
noncomputable def w90zero : ℝ := 2 / 10 ^ 6

/-- Complex matrix with explicit shape, mirroring a numpy 2-d array.
Entries outside the shape are irrelevant: every comparison in the source is
bounded by the shape. -/
structure CMatrix where
  rows : ℕ
  cols : ℕ
  entry : ℕ → ℕ → ℂ

/-- Identity matrix, mirroring `numpy.identity(n)`. -/
noncomputable def cId (n : ℕ) : CMatrix :=
  ⟨n, n, fun i j => if i = j then 1 else 0⟩

/-- Matrix product, mirroring `numpy.dot` on 2-d arrays. -/
noncomputable def cMul (A B : CMatrix) : CMatrix :=
  ⟨A.rows, B.cols, fun i j => ∑ k ∈ Finset.range A.cols, A.entry i k * B.entry k j⟩

/-- Conjugate transpose, mirroring `M.conjugate().transpose()`. -/
noncomputable def cdagger (A : CMatrix) : CMatrix :=
  ⟨A.cols, A.rows, fun i j => starRingEnd ℂ (A.entry j i)⟩

/-- Entrywise closeness of equally-shaped matrices, mirroring
`numpy.allclose(A, B, atol=tol, rtol=0)`. -/
def mAllclose (A B : CMatrix) (tol : ℝ) : Prop :=
  A.rows = B.rows ∧ A.cols = B.cols ∧
    ∀ i < A.rows, ∀ j < A.cols, Complex.abs (A.entry i j - B.entry i j) ≤ tol

/-- Hermitian matrix predicate, as checked by
`numpy.allclose(M.transpose().conjugate(), M, ...)` at exact precision. -/
def isHermitian (A : CMatrix) : Prop :=
  A.rows = A.cols ∧ ∀ i < A.rows, ∀ j < A.rows, starRingEnd ℂ (A.entry j i) = A.entry i j

/-! ## LatticeMeshBuilder: `kmesh_build` (source lines 722-761) -/

/-- K-point list of the full regular mesh including the Gamma point,
mirroring the `itertools.product` loop of `kmesh_build`:
`kpts[ii, :] = [ix / msize[0], iy / msize[1], iz / msize[2]]`. -/
def kmeshList (a b c : ℕ) : List (ℚ × ℚ × ℚ) :=
  (List.range a).flatMap fun ix =>
    (List.range b).flatMap fun iy =>
      (List.range c).map fun (iz : ℕ) => ((ix : ℚ) / a, (iy : ℚ) / b, (iz : ℚ) / c)

/-- Embedding of `kmesh_build(msize, mmode)`: any mode other than 0 raises
`ValueError`; mode 0 returns the point count, the full regular grid and the
uniform weights `1 / nkpt`. -/
def kmesh_build (msize : ℕ × ℕ × ℕ) (mmode : ℤ) :
    Except String (ℕ × List (ℚ × ℚ × ℚ) × List ℚ) :=
  if mmode ≠ 0 then .error "Mesh generation mode not supported"
  else
    let nkpt := msize.1 * msize.2.1 * msize.2.2
    .ok (nkpt, kmeshList msize.1 msize.2.1 msize.2.2,
         List.replicate nkpt (1 / (nkpt : ℚ)))

/-! ## TightBindingFileReader: `read_wannier90data` (source lines 417-600) -/

/-- One parsed data line of the `_hr.dat` file: the R-vector Miller indices
(`cline[0..2]`), the two 1-based orbital indices (`cline[3]`, `cline[4]`)
and the real/imaginary parts of the matrix element (`cline[5]`, `cline[6]`).
Decimal text values are modelled as rationals. -/
structure HrRecord where
  r1 : ℤ
  r2 : ℤ
  r3 : ℤ
  i1 : ℤ
  j1 : ℤ
  re : ℚ
  im : ℚ

instance : Inhabited HrRecord := ⟨⟨0, 0, 0, 0, 0, 0, 0⟩⟩

/-- Storage rule for one Hamiltonian record (source lines 551-555):
`h_of_r[ir][ii, jj] = complex(cline[5] - fermi_energy, cline[6])` when the
record's R-vector is zero (`not numpy.any(rcurr)`) and the loop position is
diagonal (`ii == jj`); otherwise `complex(cline[5], cline[6])`. -/
noncomputable def h_entry (fermi : ℚ) (rec : HrRecord) (ii jj : ℕ) : ℂ :=
  if (rec.r1 = 0 ∧ rec.r2 = 0 ∧ rec.r3 = 0) ∧ ii = jj then
    ⟨((rec.re - fermi : ℚ) : ℝ), ((rec.im : ℚ) : ℝ)⟩
  else
    ⟨((rec.re : ℚ) : ℝ), ((rec.im : ℚ) : ℝ)⟩

/-- Position of the record read at loop indices `(ir, jj, ii)`: the loop
`for ir, jj, ii in product(range(nrpt), range(num_wf), range(num_wf))`
advances one line per iteration. -/
def recordAt (records : List HrRecord) (num_wf ir jj ii : ℕ) : HrRecord :=
  records.getD (ir * num_wf * num_wf + jj * num_wf + ii) default

/-- Assembled `h_of_r[ir]` matrix of `read_wannier90data`. -/
noncomputable def h_of_r_read (fermi : ℚ) (num_wf : ℕ) (records : List HrRecord)
    (ir : ℕ) : CMatrix :=
  ⟨num_wf, num_wf, fun ii jj => h_entry fermi (recordAt records num_wf ir jj ii) ii jj⟩

/-- R-vector of block `ir`, fixed by the record at loop position
`ii = jj = 0` (source lines 542-543). -/
def rvec_read (records : List HrRecord) (num_wf ir : ℕ) : ℤ × ℤ × ℤ :=
  ((recordAt records num_wf ir 0 0).r1,
   (recordAt records num_wf ir 0 0).r2,
   (recordAt records num_wf ir 0 0).r3)

/-- Degeneracy of R-vector `ir`, from the degeneracy token block. -/
def rdeg_read (degs : List ℤ) (ir : ℕ) : ℤ :=
  degs.getD ir 0

/-! ### Header parsing and error flow (source lines 451-500) -/

/-- Failure kinds of the embedded reader.  `valueError` models a raised
`ValueError` (the spec's MalformedInput / InconsistentDimensions carriers),
`nameError` models a crash from referencing an unassigned local variable. -/
inductive PyError where
  | valueError (msg : List Char)
  | nameError (name : List Char)
deriving DecidableEq

/-- Whitespace test for the Python `int(str)` model. -/
def pySpace (ch : Char) : Bool :=
  ch = ' ' ∨ ch = '\n' ∨ ch = '\t' ∨ ch = '\r'

/-- Numeric value of a digit list. -/
def digitsVal (ds : List Char) : ℕ :=
  ds.foldl (fun acc ch => acc * 10 + (ch.toNat - 48)) 0

/-- Model of Python `int(s)` on a text line: strip surrounding whitespace,
accept an optional sign followed by a nonempty digit string, otherwise fail
(raising `ValueError` in Python). -/
def pyInt? (s : List Char) : Option ℤ :=
  let t := ((s.dropWhile pySpace).reverse.dropWhile pySpace).reverse
  match t with
  | '-' :: ds =>
      if ds ≠ [] ∧ ds.all Char.isDigit then some (-(digitsVal ds : ℤ)) else none
  | '+' :: ds =>
      if ds ≠ [] ∧ ds.all Char.isDigit then some ((digitsVal ds : ℤ)) else none
  | ds =>
      if ds ≠ [] ∧ ds.all Char.isDigit then some ((digitsVal ds : ℤ)) else none

/-- Embedding of the `_hr.dat` header stage (source lines 461-466 and 512).
The source wraps `num_wf = int(hr_data[1]); nrpt = int(hr_data[2])` in
`try/except ValueError` whose handler only calls `mpi.report(...)` and
continues; the next statement that the interpreter reaches then dereferences
the never-assigned local `nrpt` (line 512 in Wannier mode, line 475 in Bloch
mode), so the observable failure is a `NameError`, not a propagated
`ValueError`. -/
def hr_header_stage (numWfLine nrptLine : List Char) : Except PyError (ℤ × ℤ) :=
  match pyInt? numWfLine, pyInt? nrptLine with
  | some nw, some nr => .ok (nw, nr)
  | _, _ => .error (.nameError ['n', 'r', 'p', 't'])

/-- CPython identity test between two `int` objects produced by separate
runtime `int(...)` calls, as used (in place of `==`) by the source at lines
475 and 499: such objects are the same object exactly when they are equal
and lie in the interpreter's small-integer cache `[-5, 256]`. -/
def pyIntIs (x y : ℤ) : Bool :=
  x == y && (-5 ≤ x && x ≤ 256)

/-- Embedding of the Wannier-function count comparison between companion
files (source lines 474-476: `if num_wf_u is not num_wf: raise ValueError`;
the same pattern recurs at lines 498-500 for `_u_dis.mat` vs `_u.mat`). -/
def wf_count_check (declared other : ℤ) : Except PyError Unit :=
  if pyIntIs other declared then .ok ()
  else .error (.valueError ['W', 'F', 's'])

/-! ## FourierSynthesizer: `fourier_ham` (source lines 763-790) -/

/-- Rational dot product `numpy.dot(self.kpts[ik], self.rvec[ir])` of a
k-point with an R-vector. -/
def kdot (kp : ℚ × ℚ × ℚ) (rv : ℤ × ℤ × ℤ) : ℚ :=
  kp.1 * rv.1 + kp.2.1 * rv.2.1 + kp.2.2 * rv.2.2

/-- Unit phase `exp(2·π·i·q)` for a rational `q`. -/
noncomputable def eQ (q : ℚ) : ℂ :=
  Complex.exp (((2 * Real.pi * (q : ℝ) : ℝ) : ℂ) * Complex.I)

/-- Phase factor `math.cos(rdotk) + 1j * math.sin(rdotk)` with
`rdotk = 2π * k·R` (source lines 785-786). -/
noncomputable def phaseFactor (kp : ℚ × ℚ × ℚ) (rv : ℤ × ℤ × ℤ) : ℂ :=
  ((Real.cos (2 * Real.pi * (kdot kp rv : ℝ)) : ℝ) : ℂ) +
    ((Real.sin (2 * Real.pi * (kdot kp rv : ℝ)) : ℝ) : ℂ) * Complex.I

/-- Embedding of `fourier_ham(h_of_r)` (source lines 763-790): for each
k-point of the mesh, `H(k) = Σ_R (cos(2πk·R) + i·sin(2πk·R)) / deg(R) · H(R)`
accumulated over all `nrpt` R-vectors. -/
noncomputable def fourier_ham (nwfs nrpt : ℕ) (rvec : ℕ → ℤ × ℤ × ℤ)
    (rdeg : ℕ → ℤ) (kpts : List (ℚ × ℚ × ℚ)) (h_of_r : ℕ → CMatrix) :
    List CMatrix :=
  kpts.map fun kp =>
    ⟨nwfs, nwfs, fun i j =>
      ∑ ir ∈ Finset.range nrpt,
        phaseFactor kp (rvec ir) / ((rdeg ir : ℝ) : ℂ) * (h_of_r ir).entry i j⟩

/-- Modelled from the spec (round-trip testable property): the inverse
transform is the "sum over all k-points of `exp(-2πi k·R) · H(k)`, divided
by the k-point count".  This operation does not exist in the source; it is
the second half of the relational claim C3. -/
noncomputable def spec_inverse_fourier (nwfs : ℕ) (kpts : List (ℚ × ℚ × ℚ))
    (h_of_k : List CMatrix) (rv : ℤ × ℤ × ℤ) : CMatrix :=
  ⟨nwfs, nwfs, fun i j =>
    (((kpts.zip h_of_k).map fun p => eQ (-(kdot p.1 rv)) * p.2.entry i j).sum) /
      ((kpts.length : ℝ) : ℂ)⟩

/-! ## RotationSolver: `find_rot_mat` (source lines 602-720) -/

/-- Rotation policy `rot_mat_type`, one of `'none'`, `'hloc_diag'`
(diagonalizing), `'wannier'` (combined). -/
inductive RotMatType where
  | rot_none
  | hloc_diag
  | wannier
deriving DecidableEq

/-- Oracle for `numpy.linalg.eigh`: given the block dimension and the block,
return the eigenvalue array and the eigenvector matrix.  The guarantees of
the library routine (unitarity and shape of the eigenvector matrix) enter
theorems as explicit hypotheses. -/
def EighFn : Type :=
  ℕ → CMatrix → (ℕ → ℝ) × CMatrix

/-- Offset `iwf` of shell `ish` inside the on-site Hamiltonian: the sum of
the dimensions of the preceding shells. -/
def offs (dims : ℕ → ℕ) (ish : ℕ) : ℕ :=
  ∑ jsh ∈ Finset.range ish, dims jsh

/-- Sub-block `ham0[iwf:iwf+nw, iwf:iwf+nw]` of shell `ish`
(source line 658). -/
noncomputable def ham0_blk (dims : ℕ → ℕ) (ham0 : CMatrix) (ish : ℕ) : CMatrix :=
  ⟨dims ish, dims ish, fun i j => ham0.entry (offs dims ish + i) (offs dims ish + j)⟩

/-- Eigenvalues of shell `ish`, via the `eigh` oracle (source line 660). -/
noncomputable def eigval_sh (eigh : EighFn) (dims : ℕ → ℕ) (ham0 : CMatrix)
    (ish : ℕ) : ℕ → ℝ :=
  (eigh (dims ish) (ham0_blk dims ham0 ish)).1

/-- Eigenvector matrix of shell `ish`, via the `eigh` oracle. -/
noncomputable def eigvec_sh (eigh : EighFn) (dims : ℕ → ℕ) (ham0 : CMatrix)
    (ish : ℕ) : CMatrix :=
  (eigh (dims ish) (ham0_blk dims ham0 ish)).2

/-- Rotation matrix constructed for shell `ish` (source lines 672-685):
identity for `'none'`; the eigenvector matrix for `'hloc_diag'`; for
`'wannier'` the product with the conjugate-transposed eigenvectors of the
representative shell — unless the shapes make `numpy.dot` raise the
`ValueError` caught at line 683, in which case the identity survives. -/
noncomputable def rotOf (t : RotMatType) (eigh : EighFn) (dims shMap : ℕ → ℕ)
    (ham0 : CMatrix) (ish : ℕ) : CMatrix :=
  match t with
  | .rot_none => cId (dims ish)
  | .hloc_diag => eigvec_sh eigh dims ham0 ish
  | .wannier =>
      if (eigvec_sh eigh dims ham0 ish).cols =
          (cdagger (eigvec_sh eigh dims ham0 (shMap ish))).rows then
        cMul (eigvec_sh eigh dims ham0 ish)
          (cdagger (eigvec_sh eigh dims ham0 (shMap ish)))
      else cId (dims ish)

/-- Eigenvalue-agreement check of source lines 689-695: the eigenvalues of
shell `ish` match those of its representative `sh_map[ish]` within
tolerance. -/
def eig_check (eigh : EighFn) (dims shMap : ℕ → ℕ) (ham0 : CMatrix)
    (ish : ℕ) : Prop :=
  ∀ i < dims ish,
    |eigval_sh eigh dims ham0 ish i - eigval_sh eigh dims ham0 (shMap ish) i| ≤ w90zero

/-- Unitarity check of source lines 697-704:
`rot_mat[ish] · rot_mat[ish]^†` is close to the identity. -/
def unit_check (t : RotMatType) (eigh : EighFn) (dims shMap : ℕ → ℕ)
    (ham0 : CMatrix) (ish : ℕ) : Prop :=
  mAllclose
    (cMul (rotOf t eigh dims shMap ham0 ish) (cdagger (rotOf t eigh dims shMap ham0 ish)))
    (cId (dims ish)) w90zero

/-- Policy-dependent transform `tmp_mat` of source lines 708-712. -/
noncomputable def rot_h (t : RotMatType) (eigh : EighFn) (dims shMap : ℕ → ℕ)
    (ham0 : CMatrix) (ish : ℕ) : CMatrix :=
  if t = RotMatType.hloc_diag then
    cMul (rotOf t eigh dims shMap ham0 ish)
      (cdagger (rotOf t eigh dims shMap ham0 (shMap ish)))
  else rotOf t eigh dims shMap ham0 ish

/-- Block-mapping check of source lines 713-718:
`rot_h^† · ham0_blk[ish] · rot_h` is close to the representative's block. -/
def map_check (t : RotMatType) (eigh : EighFn) (dims shMap : ℕ → ℕ)
    (ham0 : CMatrix) (ish : ℕ) : Prop :=
  mAllclose
    (cMul (cdagger (rot_h t eigh dims shMap ham0 ish))
      (cMul (ham0_blk dims ham0 ish) (rot_h t eigh dims shMap ham0 ish)))
    (ham0_blk dims ham0 (shMap ish)) w90zero

/-- All three per-shell checks. -/
def checks (t : RotMatType) (eigh : EighFn) (dims shMap : ℕ → ℕ)
    (ham0 : CMatrix) (ish : ℕ) : Prop :=
  eig_check eigh dims shMap ham0 ish ∧ unit_check t eigh dims shMap ham0 ish ∧
    map_check t eigh dims shMap ham0 ish

/-- Final value of the imperative `succeeded` flag: it starts `True` and each
failed check of each shell turns it `False`. -/
def succ_flag (t : RotMatType) (eigh : EighFn) (n_sh : ℕ) (dims shMap : ℕ → ℕ)
    (ham0 : CMatrix) : Prop :=
  (List.range n_sh).foldl (fun acc ish => acc ∧ checks t eigh dims shMap ham0 ish) True

/-- Result of `find_rot_mat`: the success flag and the rotation list. -/
structure RotResult where
  succeeded : Prop
  rot_mat : List CMatrix

/-- Embedding of `find_rot_mat(n_sh, sh_lst, sh_map, ham0)` (source lines
602-720): initialize identity rotations; on a wrong block structure return
`(False, identities)` immediately; under policy `'none'` return
`(True, identities)`; otherwise construct the per-shell rotations and run
the three per-shell checks, any failure clearing the flag. -/
noncomputable def find_rot_mat (t : RotMatType) (eigh : EighFn) (n_sh : ℕ)
    (dims shMap : ℕ → ℕ) (ham0 : CMatrix) : RotResult :=
  if ham0.rows ≠ ham0.cols ∨ ham0.rows ≠ ∑ ish ∈ Finset.range n_sh, dims ish then
    ⟨False, (List.range n_sh).map fun ish => cId (dims ish)⟩
  else if t = RotMatType.rot_none then
    ⟨True, (List.range n_sh).map fun ish => cId (dims ish)⟩
  else
    ⟨succ_flag t eigh n_sh dims shMap ham0,
     (List.range n_sh).map fun ish => rotOf t eigh dims shMap ham0 ish⟩

/-- Diagonalizer fixture for concrete instances: returns the top-left real
part as the (constant) eigenvalue array and the identity as eigenvectors;
shape-correct and unitary on every input. -/
noncomputable def egEigh : EighFn := fun n A => (fun _ => (A.entry 0 0).re, cId n)

/-- On-site fixture: two 1×1 shells with on-site values `1/2` and `9/10`. -/
noncomputable def egHam0 : CMatrix :=
  ⟨2, 2, fun i j =>
    if i = j then (if i = 0 then ((1 / 2 : ℝ) : ℂ) else ((9 / 10 : ℝ) : ℂ)) else 0⟩

/-! ## ConversionOrchestrator: hopping assembly and the 1×1 scenario
(source lines 116-415) -/

/-- Spin-polarization flag, fixed at 0 by the source (line 180). -/
def SP : ℕ := 0

/-- Spin-orbit flag, fixed at 0 by the source (line 181). -/
def SO : ℕ := 0

/-- Number of spin channels `n_spin = SP + 1 - SO` (source line 186). -/
def n_spin : ℕ := SP + 1 - SO

/-- Hopping assembly for one spin channel in Wannier-basis mode
(`bloch_basis = False`, source lines 372-392): with disentanglement
(`n_bands_max > nwfs`) the hopping is the diagonal Kohn-Sham band matrix;
otherwise it is the Fourier transform of `H(R)` (the upfold branch is
guarded by `self.bloch_basis` and does not run in this mode);
`energy_unit = 1.0`. -/
noncomputable def hopping_wannier_mode (n_bands_max nwfs nrpt : ℕ)
    (rvec : ℕ → ℤ × ℤ × ℤ) (rdeg : ℕ → ℤ) (kpts : List (ℚ × ℚ × ℚ))
    (h_of_r : ℕ → CMatrix) (band_mat : ℕ → ℕ → ℝ) : List CMatrix :=
  if nwfs < n_bands_max then
    (List.range kpts.length).map fun ik =>
      ⟨n_bands_max, n_bands_max, fun i j =>
        if i = j then ((band_mat ik i : ℝ) : ℂ) else 0⟩
  else fourier_ham nwfs nrpt rvec rdeg kpts h_of_r

/-- Identity-stacked disentanglement matrices of the Wannier-basis branch
(source line 593): `numpy.array([identity(num_wf)] * self.n_k)`. -/
noncomputable def udis_mat_wannier (n_k num_wf : ℕ) : List CMatrix :=
  List.replicate n_k (cId num_wf)

namespace Scenario

/-- The single `_hr.dat` record of the end-to-end scenario: R = (0,0,0),
orbital indices (1,1), element `(0.5, 0.0)`. -/
def recs : List HrRecord := [⟨0, 0, 0, 1, 1, 1 / 2, 0⟩]

/-- A single R-vector with degeneracy 1. -/
def degs : List ℤ := [1]

/-- Parsed `h_of_r` of the scenario at a configurable Fermi energy. -/
noncomputable def hamr (fermi : ℚ) : ℕ → CMatrix := h_of_r_read fermi 1 recs

/-- K-point list of the scenario's 1×1×1 mesh, through `kmesh_build`. -/
def kpts : List (ℚ × ℚ × ℚ) :=
  match kmesh_build (1, 1, 1) 0 with
  | .ok x => x.2.1
  | .error _ => []

/-- K-point count of the scenario, through `kmesh_build`. -/
def n_k : ℕ :=
  match kmesh_build (1, 1, 1) 0 with
  | .ok x => x.1
  | .error _ => 0

/-- Number of bands in the window: second dimension of `udis_mat`
(source line 296), which in Wannier-basis mode is the identity stack. -/
noncomputable def n_bands_max : ℕ := ((udis_mat_wannier n_k 1).headD (cId 0)).rows

/-- Scenario hopping (one spin channel). -/
noncomputable def hopping (fermi : ℚ) : List CMatrix :=
  hopping_wannier_mode n_bands_max 1 1 (rvec_read recs 1) (rdeg_read degs)
    kpts (hamr fermi) (fun _ _ => 1)

/-- On-site block `ham_corr0 = hamr[ir0][0:1, 0:1]` of the scenario at
Fermi energy 0 (source lines 318-321). -/
noncomputable def ham0 : CMatrix := ⟨1, 1, fun i j => (hamr 0 0).entry i j⟩

/-- Shell sub-block handed to the diagonalizer. -/
noncomputable def blk : CMatrix := ham0_blk (fun _ => 1) ham0 0

/-- Scenario rotation list from `find_rot_mat` under the default
`'hloc_diag'` policy. -/
noncomputable def rot (eigh : EighFn) : List CMatrix :=
  (find_rot_mat RotMatType.hloc_diag eigh 1 (fun _ => 1) (fun _ => 0) ham0).rot_mat

end Scenario

/-! ## Lemmas and claim theorems -/

lemma length_range_flatMap {α : Type} (n : ℕ) (g : ℕ → List α) :
    ((List.range n).flatMap g).length = ∑ i ∈ Finset.range n, (g i).length := by
  induction n with
  | zero => simp
  | succ m ih =>
      rw [List.range_succ, List.flatMap_append, List.length_append, ih,
        Finset.sum_range_succ]
      simp

lemma kmeshList_length (a b c : ℕ) : (kmeshList a b c).length = a * b * c := by
  unfold kmeshList
  rw [length_range_flatMap]
  simp only [length_range_flatMap, List.length_map, List.length_range]
  simp [Finset.sum_const, Finset.card_range, mul_assoc]

lemma origin_mem_kmeshList (a b c : ℕ) (ha : 0 < a) (hb : 0 < b) (hc : 0 < c) :
    ((0 : ℚ), (0 : ℚ), (0 : ℚ)) ∈ kmeshList a b c := by
  unfold kmeshList
  simp only [List.mem_flatMap, List.mem_map, List.mem_range]
  exact ⟨0, ha, 0, hb, 0, hc, by simp⟩

/-- C9: in mode 0 with positive axis sizes `(a, b, c)`, `kmesh_build` returns
exactly `a·b·c` k-points including the origin, uniform weights `1/(a·b·c)`
summing to 1; every other mode fails with the unsupported-mode error. -/
theorem C9_kmesh_build (a b c : ℕ) (mmode : ℤ) :
    (mmode ≠ 0 → ∃ msg, kmesh_build (a, b, c) mmode = .error msg) ∧
    (mmode = 0 → 0 < a → 0 < b → 0 < c →
      ∃ nkpt kpts wk, kmesh_build (a, b, c) mmode = .ok (nkpt, kpts, wk) ∧
        nkpt = a * b * c ∧
        kpts.length = a * b * c ∧
        ((0 : ℚ), (0 : ℚ), (0 : ℚ)) ∈ kpts ∧
        (∀ w ∈ wk, w = 1 / ((a * b * c : ℕ) : ℚ)) ∧
        wk.sum = 1 ∧
        wk.length = a * b * c) := by
  constructor
  · intro hmode
    exact ⟨"Mesh generation mode not supported", by simp [kmesh_build, hmode]⟩
  · intro hmode ha hb hc
    refine ⟨a * b * c, kmeshList a b c,
      List.replicate (a * b * c) (1 / ((a * b * c : ℕ) : ℚ)), ?_, rfl,
      kmeshList_length a b c, origin_mem_kmeshList a b c ha hb hc, ?_, ?_, ?_⟩
    · simp [kmesh_build, hmode]
    · intro w hw
      exact List.eq_of_mem_replicate hw
    · have hne : ((a * b * c : ℕ) : ℚ) ≠ 0 := by
        have : 0 < a * b * c := by positivity
        exact_mod_cast this.ne'
      rw [List.sum_replicate, nsmul_eq_mul]
      field_simp
    · simp

/-- Witness for C9 at concrete inputs: mode 1 fails, and the 2×3×4 mesh in
mode 0 has 24 points, the origin, and uniform weights summing to 1. -/
theorem C9_kmesh_build_witness :
    (∃ msg, kmesh_build (2, 3, 4) 1 = .error msg) ∧
    (∃ nkpt kpts wk, kmesh_build (2, 3, 4) 0 = .ok (nkpt, kpts, wk) ∧
      nkpt = 2 * 3 * 4 ∧
      kpts.length = 2 * 3 * 4 ∧
      ((0 : ℚ), (0 : ℚ), (0 : ℚ)) ∈ kpts ∧
      (∀ w ∈ wk, w = 1 / ((2 * 3 * 4 : ℕ) : ℚ)) ∧
      wk.sum = 1 ∧
      wk.length = 2 * 3 * 4) :=
  ⟨(C9_kmesh_build 2 3 4 1).1 (by decide),
   (C9_kmesh_build 2 3 4 0).2 rfl (by decide) (by decide) (by decide)⟩

/-- C8: on a header whose Wannier-function count line is non-numeric the
reader does not fail with a parse error (`ValueError`, the spec's
MalformedInput): the `except` clause at lines 465-466 swallows it, and the
run dies with a `NameError` on the unassigned `nrpt` before any numerical
stage; a well-formed header parses. -/
theorem C8_header_failure :
    hr_header_stage ['a', 'b', 'c'] ['5'] =
      .error (.nameError ['n', 'r', 'p', 't']) ∧
    (PyError.nameError ['n', 'r', 'p', 't'] ≠
      PyError.valueError ['a', 'b', 'c']) ∧
    hr_header_stage [' ', '3', ' '] ['5'] = .ok (3, 5) := by
  refine ⟨by rfl, by decide, by rfl⟩

/-- C7: the count check raises when the declared counts differ (5 vs 7), and
does not raise for equal small counts (5 vs 5); but because the source
compares with `is not` (object identity) rather than `!=`, it also raises
for equal counts outside CPython's small-integer cache (300 vs 300),
contradicting the claim that equal declared counts never raise. -/
theorem C7_wf_count_check :
    wf_count_check 5 7 = .error (.valueError ['W', 'F', 's']) ∧
    wf_count_check 5 5 = .ok () ∧
    wf_count_check 300 300 = .error (.valueError ['W', 'F', 's']) := by
  refine ⟨by rfl, by rfl, by rfl⟩

lemma phaseFactor_eq_eQ (kp : ℚ × ℚ × ℚ) (rv : ℤ × ℤ × ℤ) :
    phaseFactor kp rv = eQ (kdot kp rv) := by
  rw [phaseFactor, eQ, Complex.exp_mul_I, Complex.ofReal_cos, Complex.ofReal_sin]

lemma eQ_add (q r : ℚ) : eQ (q + r) = eQ q * eQ r := by
  rw [eQ, eQ, eQ, ← Complex.exp_add]
  congr 1
  push_cast
  ring

lemma eQ_zero : eQ 0 = 1 := by
  simp [eQ]

lemma eQ_intCast (n : ℤ) : eQ (n : ℚ) = 1 := by
  have h := Complex.exp_int_mul_two_pi_mul_I n
  rw [eQ, ← h]
  congr 1
  push_cast
  ring

lemma eQ_nat_mul (n : ℕ) (q : ℚ) : eQ ((n : ℚ) * q) = eQ q ^ n := by
  rw [eQ, eQ, ← Complex.exp_nat_mul]
  congr 1
  push_cast
  ring

lemma eQ_eq_one_iff (q : ℚ) : eQ q = 1 ↔ ∃ n : ℤ, q = (n : ℚ) := by
  have hfactor : ∀ r : ℚ, (((2 * Real.pi * (r : ℝ) : ℝ)) : ℂ) * Complex.I =
      ((r : ℝ) : ℂ) * (2 * (Real.pi : ℂ) * Complex.I) := by
    intro r
    push_cast
    ring
  have hne : (2 * (Real.pi : ℂ) * Complex.I) ≠ 0 :=
    mul_ne_zero (mul_ne_zero two_ne_zero (by exact_mod_cast Real.pi_ne_zero))
      Complex.I_ne_zero
  rw [eQ, Complex.exp_eq_one_iff]
  constructor
  · rintro ⟨n, hn⟩
    refine ⟨n, ?_⟩
    rw [hfactor] at hn
    have hq : ((q : ℝ) : ℂ) = (n : ℂ) := mul_right_cancel₀ hne hn
    have hqr : (q : ℝ) = ((n : ℚ) : ℝ) := by exact_mod_cast hq
    exact_mod_cast hqr
  · rintro ⟨n, hn⟩
    refine ⟨n, ?_⟩
    rw [hn, hfactor]
    push_cast
    ring

/-- Geometric character sum: summing the phases `exp(2πi·i·m/N)` over a full
1-d grid of size `N` gives `N` when `N ∣ m` and `0` otherwise. -/
lemma sum_eQ_range (N : ℕ) (hN : 0 < N) (m : ℤ) :
    ∑ i ∈ Finset.range N, eQ ((i : ℚ) * ((m : ℚ) / (N : ℚ))) =
      if (N : ℤ) ∣ m then (N : ℂ) else 0 := by
  have hNQ : ((N : ℚ)) ≠ 0 := by exact_mod_cast hN.ne'
  by_cases hdvd : (N : ℤ) ∣ m
  · rw [if_pos hdvd]
    obtain ⟨k, hk⟩ := hdvd
    have hterm : ∀ i ∈ Finset.range N, eQ ((i : ℚ) * ((m : ℚ) / (N : ℚ))) = 1 := by
      intro i _
      have harg : (i : ℚ) * ((m : ℚ) / (N : ℚ)) = (((i : ℤ) * k : ℤ) : ℚ) := by
        rw [hk]
        push_cast
        field_simp
      rw [harg, eQ_intCast]
    rw [Finset.sum_congr rfl hterm, Finset.sum_const, Finset.card_range,
      nsmul_eq_mul, mul_one]
  · rw [if_neg hdvd]
    set x := eQ ((m : ℚ) / (N : ℚ)) with hx
    have hxne : x ≠ 1 := by
      intro hone
      obtain ⟨n, hn⟩ := (eQ_eq_one_iff _).mp hone
      apply hdvd
      refine ⟨n, ?_⟩
      have : (m : ℚ) = (N : ℚ) * (n : ℚ) := by
        field_simp at hn
        linarith [hn]
      exact_mod_cast this
    have hterm : ∀ i ∈ Finset.range N, eQ ((i : ℚ) * ((m : ℚ) / (N : ℚ))) = x ^ i := by
      intro i _
      rw [hx, ← eQ_nat_mul]
    rw [Finset.sum_congr rfl hterm, geom_sum_eq hxne]
    have hxN : x ^ N = 1 := by
      rw [hx, ← eQ_nat_mul]
      have : (N : ℚ) * ((m : ℚ) / (N : ℚ)) = (m : ℚ) := by field_simp
      rw [this, eQ_intCast]
    rw [hxN]
    simp

lemma list_map_range_sum {M : Type} [AddCommMonoid M] (n : ℕ) (f : ℕ → M) :
    ((List.range n).map f).sum = ∑ i ∈ Finset.range n, f i := by
  induction n with
  | zero => simp
  | succ m ih =>
      rw [List.range_succ, List.map_append, List.sum_append, ih,
        Finset.sum_range_succ]
      simp

lemma sum_map_range_flatMap {α : Type} (n : ℕ) (g : ℕ → List α) (f : α → ℂ) :
    (((List.range n).flatMap g).map f).sum =
      ∑ i ∈ Finset.range n, ((g i).map f).sum := by
  induction n with
  | zero => simp
  | succ m ih =>
      rw [List.range_succ, List.flatMap_append, List.map_append, List.sum_append,
        ih, Finset.sum_range_succ]
      simp

/-- Sum of a function over the generated k-mesh, as a triple nested sum over
the grid indices. -/
lemma sum_over_kmeshList (a b c : ℕ) (f : ℚ × ℚ × ℚ → ℂ) :
    ((kmeshList a b c).map f).sum =
      ∑ ix ∈ Finset.range a, ∑ iy ∈ Finset.range b, ∑ iz ∈ Finset.range c,
        f ((ix : ℚ) / a, (iy : ℚ) / b, (iz : ℚ) / c) := by
  unfold kmeshList
  rw [sum_map_range_flatMap]
  refine Finset.sum_congr rfl fun ix _ => ?_
  rw [sum_map_range_flatMap]
  refine Finset.sum_congr rfl fun iy _ => ?_
  rw [List.map_map, list_map_range_sum]
  rfl

lemma list_sum_finset_sum_comm {α : Type} (l : List α) (s : Finset ℕ)
    (g : α → ℕ → ℂ) :
    (l.map fun x => ∑ y ∈ s, g x y).sum = ∑ y ∈ s, (l.map fun x => g x y).sum := by
  induction l with
  | nil => simp
  | cons hd tl ih =>
      simp only [List.map_cons, List.sum_cons, ih]
      rw [← Finset.sum_add_distrib]

lemma list_sum_map_mul_right {α : Type} (l : List α) (f : α → ℂ) (z : ℂ) :
    (l.map fun x => f x * z).sum = (l.map f).sum * z := by
  induction l with
  | nil => simp
  | cons hd tl ih =>
      simp [ih, add_mul]

/-- Phase sum over the full 3-d mesh: `a·b·c` on R-vectors congruent to zero
modulo the mesh, `0` otherwise. -/
lemma sum_kmesh_phase (a b c : ℕ) (ha : 0 < a) (hb : 0 < b) (hc : 0 < c)
    (d : ℤ × ℤ × ℤ) :
    ((kmeshList a b c).map fun kp => eQ (kdot kp d)).sum =
      if (a : ℤ) ∣ d.1 ∧ (b : ℤ) ∣ d.2.1 ∧ (c : ℤ) ∣ d.2.2 then
        ((a * b * c : ℕ) : ℂ)
      else 0 := by
  rw [sum_over_kmeshList]
  have hsplit : ∀ ix iy iz : ℕ,
      kdot ((ix : ℚ) / a, (iy : ℚ) / b, (iz : ℚ) / c) d =
        (ix : ℚ) * ((d.1 : ℚ) / (a : ℚ)) + ((iy : ℚ) * ((d.2.1 : ℚ) / (b : ℚ)) +
          (iz : ℚ) * ((d.2.2 : ℚ) / (c : ℚ))) := by
    intro ix iy iz
    rw [kdot]
    ring
  have hterm : ∀ ix iy iz : ℕ,
      eQ (kdot ((ix : ℚ) / a, (iy : ℚ) / b, (iz : ℚ) / c) d) =
        eQ ((ix : ℚ) * ((d.1 : ℚ) / (a : ℚ))) *
          (eQ ((iy : ℚ) * ((d.2.1 : ℚ) / (b : ℚ))) *
            eQ ((iz : ℚ) * ((d.2.2 : ℚ) / (c : ℚ)))) := by
    intro ix iy iz
    rw [hsplit, eQ_add, eQ_add]
  have hprod :
      (∑ ix ∈ Finset.range a, eQ ((ix : ℚ) * ((d.1 : ℚ) / (a : ℚ)))) *
        ((∑ iy ∈ Finset.range b, eQ ((iy : ℚ) * ((d.2.1 : ℚ) / (b : ℚ)))) *
          (∑ iz ∈ Finset.range c, eQ ((iz : ℚ) * ((d.2.2 : ℚ) / (c : ℚ))))) =
      ∑ ix ∈ Finset.range a, ∑ iy ∈ Finset.range b, ∑ iz ∈ Finset.range c,
        eQ ((ix : ℚ) * ((d.1 : ℚ) / (a : ℚ))) *
          (eQ ((iy : ℚ) * ((d.2.1 : ℚ) / (b : ℚ))) *
            eQ ((iz : ℚ) * ((d.2.2 : ℚ) / (c : ℚ)))) := by
    rw [Finset.sum_mul_sum, Finset.sum_mul_sum]
    simp only [Finset.mul_sum]
  have hcongr :
      (∑ ix ∈ Finset.range a, ∑ iy ∈ Finset.range b, ∑ iz ∈ Finset.range c,
          eQ (kdot ((ix : ℚ) / a, (iy : ℚ) / b, (iz : ℚ) / c) d)) =
      ∑ ix ∈ Finset.range a, ∑ iy ∈ Finset.range b, ∑ iz ∈ Finset.range c,
        eQ ((ix : ℚ) * ((d.1 : ℚ) / (a : ℚ))) *
          (eQ ((iy : ℚ) * ((d.2.1 : ℚ) / (b : ℚ))) *
            eQ ((iz : ℚ) * ((d.2.2 : ℚ) / (c : ℚ)))) :=
    Finset.sum_congr rfl fun ix _ => Finset.sum_congr rfl fun iy _ =>
      Finset.sum_congr rfl fun iz _ => hterm ix iy iz
  rw [hcongr, ← hprod, sum_eQ_range a ha d.1, sum_eQ_range b hb d.2.1,
    sum_eQ_range c hc d.2.2]
  by_cases h1 : (a : ℤ) ∣ d.1 <;> by_cases h2 : (b : ℤ) ∣ d.2.1 <;>
    by_cases h3 : (c : ℤ) ∣ d.2.2 <;>
    simp [h1, h2, h3] <;> (try push_cast) <;> (try ring)

lemma kdot_sub (kp : ℚ × ℚ × ℚ) (u v : ℤ × ℤ × ℤ) :
    kdot kp (u.1 - v.1, u.2.1 - v.2.1, u.2.2 - v.2.2) =
      kdot kp u + (-(kdot kp v)) := by
  rw [kdot, kdot, kdot]
  push_cast
  ring

/-- C3 (amended): Fourier synthesis over the full mesh followed by the
spec's inverse transform reproduces `H(R) / degeneracy(R)` — not `H(R)` —
at every stored R-vector, provided distinct stored R-vectors are never
congruent modulo the mesh dimensions.  (With all degeneracies 1 the
original `H(R)` is recovered; `C3_roundtrip_counterexample` shows the
division by the degeneracy is unavoidable.) -/
theorem C3_roundtrip_amended (a b c nwfs nrpt : ℕ)
    (ha : 0 < a) (hb : 0 < b) (hc : 0 < c)
    (rvec : ℕ → ℤ × ℤ × ℤ) (rdeg : ℕ → ℤ) (h_of_r : ℕ → CMatrix)
    (hdeg : ∀ ir < nrpt, 0 < rdeg ir)
    (r : ℕ) (hrlt : r < nrpt)
    (hdist : ∀ s < nrpt, s ≠ r →
      ¬ ((a : ℤ) ∣ (rvec s).1 - (rvec r).1 ∧
         (b : ℤ) ∣ (rvec s).2.1 - (rvec r).2.1 ∧
         (c : ℤ) ∣ (rvec s).2.2 - (rvec r).2.2)) :
    ∀ i j, (spec_inverse_fourier nwfs (kmeshList a b c)
        (fourier_ham nwfs nrpt rvec rdeg (kmeshList a b c) h_of_r)
        (rvec r)).entry i j
      = (h_of_r r).entry i j / ((rdeg r : ℝ) : ℂ) := by
  intro i j
  set kpts := kmeshList a b c with hkpts
  set F := fun kp : ℚ × ℚ × ℚ =>
    (⟨nwfs, nwfs, fun i j =>
      ∑ ir ∈ Finset.range nrpt,
        phaseFactor kp (rvec ir) / ((rdeg ir : ℝ) : ℂ) *
          (h_of_r ir).entry i j⟩ : CMatrix) with hF
  have hzip : kpts.zip (kpts.map F) = kpts.map fun kp => (kp, F kp) := by
    nth_rewrite 1 [← List.map_id kpts]
    rw [List.zip_map']
    simp
  have habc : (0 : ℕ) < a * b * c := by positivity
  have habcC : ((a * b * c : ℕ) : ℂ) ≠ 0 := Nat.cast_ne_zero.mpr habc.ne'
  have hterm : ∀ kp ∈ kpts,
      eQ (-(kdot kp (rvec r))) * (F kp).entry i j =
        ∑ ir ∈ Finset.range nrpt,
          eQ (kdot kp ((rvec ir).1 - (rvec r).1, (rvec ir).2.1 - (rvec r).2.1,
            (rvec ir).2.2 - (rvec r).2.2)) *
            ((h_of_r ir).entry i j / ((rdeg ir : ℝ) : ℂ)) := by
    intro kp _
    rw [hF]
    simp only []
    rw [Finset.mul_sum]
    refine Finset.sum_congr rfl fun ir _ => ?_
    rw [phaseFactor_eq_eQ, kdot_sub, eQ_add]
    ring
  have hnum : ((kpts.zip (kpts.map F)).map fun p =>
        eQ (-(kdot p.1 (rvec r))) * p.2.entry i j).sum =
      ((a * b * c : ℕ) : ℂ) * ((h_of_r r).entry i j / ((rdeg r : ℝ) : ℂ)) := by
    rw [hzip, List.map_map]
    have hmc : kpts.map ((fun p : (ℚ × ℚ × ℚ) × CMatrix =>
          eQ (-(kdot p.1 (rvec r))) * p.2.entry i j) ∘ fun kp => (kp, F kp)) =
        kpts.map fun kp =>
          ∑ ir ∈ Finset.range nrpt,
            eQ (kdot kp ((rvec ir).1 - (rvec r).1, (rvec ir).2.1 - (rvec r).2.1,
              (rvec ir).2.2 - (rvec r).2.2)) *
              ((h_of_r ir).entry i j / ((rdeg ir : ℝ) : ℂ)) :=
      List.map_congr_left fun kp hkp => hterm kp hkp
    rw [hmc, list_sum_finset_sum_comm]
    have hir : ∀ ir ∈ Finset.range nrpt,
        (kpts.map fun kp =>
          eQ (kdot kp ((rvec ir).1 - (rvec r).1, (rvec ir).2.1 - (rvec r).2.1,
            (rvec ir).2.2 - (rvec r).2.2)) *
            ((h_of_r ir).entry i j / ((rdeg ir : ℝ) : ℂ))).sum =
        (if (a : ℤ) ∣ (rvec ir).1 - (rvec r).1 ∧
            (b : ℤ) ∣ (rvec ir).2.1 - (rvec r).2.1 ∧
            (c : ℤ) ∣ (rvec ir).2.2 - (rvec r).2.2 then ((a * b * c : ℕ) : ℂ)
          else 0) * ((h_of_r ir).entry i j / ((rdeg ir : ℝ) : ℂ)) := by
      intro ir _
      rw [list_sum_map_mul_right, hkpts, sum_kmesh_phase a b c ha hb hc]
    rw [Finset.sum_congr rfl hir]
    rw [Finset.sum_eq_single_of_mem r (Finset.mem_range.mpr hrlt)]
    · have hself : (a : ℤ) ∣ (rvec r).1 - (rvec r).1 ∧
          (b : ℤ) ∣ (rvec r).2.1 - (rvec r).2.1 ∧
          (c : ℤ) ∣ (rvec r).2.2 - (rvec r).2.2 := by
        refine ⟨?_, ?_, ?_⟩ <;> simp
      rw [if_pos hself]
    · intro s hs hsne
      rw [if_neg (hdist s (Finset.mem_range.mp hs) hsne), zero_mul]
  rw [spec_inverse_fourier]
  simp only []
  have hfh : fourier_ham nwfs nrpt rvec rdeg kpts h_of_r = kpts.map F := rfl
  rw [hfh, hnum]
  have hlen : ((kpts.length : ℝ) : ℂ) = ((a * b * c : ℕ) : ℂ) := by
    rw [hkpts, kmeshList_length]
    push_cast
    ring
  rw [hlen, mul_comm ((a * b * c : ℕ) : ℂ) _, mul_div_assoc, div_self habcC,
    mul_one]

lemma kmeshList_one : kmeshList 1 1 1 = [((0 : ℚ), (0 : ℚ), (0 : ℚ))] := by
  unfold kmeshList
  norm_num [List.range_succ]

lemma eQ_neg_zero : eQ (-0) = 1 := by
  rw [neg_zero, eQ_zero]

/-- C3 (counterexample to the claim as stated): on the 1×1×1 mesh with the
single R-vector `(0,0,0)` of degeneracy `2` and `H(R) = [[1]]`, the
synthesize-then-invert round trip returns `1/2`, which differs from the
original entry `1` by far more than the converter's tolerance — the claim's
"for any degeneracy-weighted lattice set" fails. -/
theorem C3_roundtrip_counterexample :
    w90zero < Complex.abs
      ((spec_inverse_fourier 1 (kmeshList 1 1 1)
          (fourier_ham 1 1 (fun _ => (0, 0, 0)) (fun _ => 2) (kmeshList 1 1 1)
            (fun _ => ⟨1, 1, fun _ _ => 1⟩)) (0, 0, 0)).entry 0 0 -
        (⟨1, 1, fun _ _ => 1⟩ : CMatrix).entry 0 0) := by
  have hval : (spec_inverse_fourier 1 (kmeshList 1 1 1)
      (fourier_ham 1 1 (fun _ => (0, 0, 0)) (fun _ => 2) (kmeshList 1 1 1)
        (fun _ => ⟨1, 1, fun _ _ => 1⟩)) (0, 0, 0)).entry 0 0 = 1 / 2 := by
    rw [kmeshList_one]
    rw [spec_inverse_fourier]
    simp only [fourier_ham, List.map_cons, List.map_nil, List.zip_cons_cons,
      List.zip_nil_right, List.sum_cons, List.sum_nil, List.length_cons,
      List.length_nil]
    have hkd : kdot ((0 : ℚ), (0 : ℚ), (0 : ℚ)) ((0 : ℤ), (0 : ℤ), (0 : ℤ)) = 0 := by
      norm_num [kdot]
    have hph : phaseFactor ((0 : ℚ), (0 : ℚ), (0 : ℚ)) ((0 : ℤ), (0 : ℤ), (0 : ℤ)) = 1 := by
      rw [phaseFactor, hkd]
      norm_num
    rw [hkd, eQ_neg_zero]
    simp only [Finset.sum_range_succ, Finset.sum_range_zero, zero_add]
    rw [hph]
    norm_num
  rw [hval]
  have habs : (1 / 2 - (⟨1, 1, fun _ _ => 1⟩ : CMatrix).entry 0 0 : ℂ) =
      (((-(1 / 2) : ℝ)) : ℂ) := by
    norm_num
  rw [habs, Complex.abs_ofReal, w90zero]
  rw [abs_neg, abs_of_pos (by norm_num : (0 : ℝ) < 1 / 2)]
  norm_num

/-- Witness for the amended round trip: on the 1×1×1 mesh with one R-vector
of degeneracy 1 and `H(R) = [[1]]`, the inverse transform recovers the
original entry divided by the degeneracy 1. -/
theorem C3_roundtrip_witness :
    (spec_inverse_fourier 1 (kmeshList 1 1 1)
        (fourier_ham 1 1 (fun _ => (0, 0, 0)) (fun _ => 1) (kmeshList 1 1 1)
          (fun _ => ⟨1, 1, fun _ _ => 1⟩)) (0, 0, 0)).entry 0 0
      = (⟨1, 1, fun _ _ => 1⟩ : CMatrix).entry 0 0 / (((1 : ℤ) : ℝ) : ℂ) :=
  C3_roundtrip_amended 1 1 1 1 1 (by decide) (by decide) (by decide)
    (fun _ => (0, 0, 0)) (fun _ => 1) (fun _ => ⟨1, 1, fun _ _ => 1⟩)
    (fun ir _ => Int.zero_lt_one) 0 (by decide)
    (fun s hs hne => absurd (Nat.lt_one_iff.mp hs) hne) 0 0

lemma foldl_and_iff {α : Type} (l : List α) (p : α → Prop) (init : Prop) :
    l.foldl (fun acc x => acc ∧ p x) init ↔ init ∧ ∀ x ∈ l, p x := by
  induction l generalizing init with
  | nil => simp
  | cons hd tl ih =>
      rw [List.foldl_cons, ih]
      constructor
      · rintro ⟨⟨hinit, hhd⟩, htl⟩
        exact ⟨hinit, fun x hx => by
          rcases List.mem_cons.mp hx with hx | hx
          · exact hx ▸ hhd
          · exact htl x hx⟩
      · rintro ⟨hinit, hall⟩
        exact ⟨⟨hinit, hall hd (List.mem_cons_self hd tl)⟩,
          fun x hx => hall x (List.mem_cons_of_mem hd hx)⟩

lemma succ_flag_iff (t : RotMatType) (eigh : EighFn) (n_sh : ℕ)
    (dims shMap : ℕ → ℕ) (ham0 : CMatrix) :
    succ_flag t eigh n_sh dims shMap ham0 ↔
      ∀ ish < n_sh, checks t eigh dims shMap ham0 ish := by
  rw [succ_flag, foldl_and_iff]
  simp [List.mem_range]

lemma getD_map_range {α : Type} (n i : ℕ) (f : ℕ → α) (d : α) (h : i < n) :
    (((List.range n).map f).getD i d) = f i := by
  rw [List.getD_eq_getElem?_getD]
  simp [List.getElem?_map, List.getElem?_range h]

lemma w90zero_pos : 0 < w90zero := by
  rw [w90zero]
  norm_num

lemma offs_add_dims_le (dims : ℕ → ℕ) (n_sh ish : ℕ) (hish : ish < n_sh) :
    offs dims ish + dims ish ≤ ∑ jsh ∈ Finset.range n_sh, dims jsh := by
  rw [offs, ← Finset.sum_range_succ]
  exact Finset.sum_le_sum_of_subset (Finset.range_subset.mpr hish)

lemma ham0_blk_isHermitian (dims : ℕ → ℕ) (n_sh : ℕ) (ham0 : CMatrix)
    (hherm : isHermitian ham0)
    (hdim : ham0.rows = ∑ jsh ∈ Finset.range n_sh, dims jsh)
    (ish : ℕ) (hish : ish < n_sh) :
    isHermitian (ham0_blk dims ham0 ish) := by
  refine ⟨rfl, fun i hi j hj => ?_⟩
  have hle := offs_add_dims_le dims n_sh ish hish
  have hi2 : i < dims ish := hi
  have hj2 : j < dims ish := hj
  have hib : offs dims ish + i < ham0.rows := by
    rw [hdim]; omega
  have hjb : offs dims ish + j < ham0.rows := by
    rw [hdim]; omega
  exact hherm.2 _ hib _ hjb

/-- C4: for a Hermitian on-site Hamiltonian with the declared block
structure, `find_rot_mat` under the `'hloc_diag'` policy returns, for every
shell, a rotation matrix `R` with `R · R^†` equal to the identity within the
tolerance `2e-6` — given the library guarantee that `numpy.linalg.eigh`
returns a square unitary eigenvector matrix on Hermitian input. -/
theorem C4_hloc_diag_unitary (eigh : EighFn) (n_sh : ℕ) (dims shMap : ℕ → ℕ)
    (ham0 : CMatrix)
    (hherm : isHermitian ham0)
    (hsq : ham0.rows = ham0.cols)
    (hdim : ham0.rows = ∑ ish ∈ Finset.range n_sh, dims ish)
    (heigh : ∀ n A, isHermitian A → A.rows = n → A.cols = n →
      (eigh n A).2.rows = n ∧ (eigh n A).2.cols = n ∧
        ∀ i < n, ∀ j < n,
          (cMul (eigh n A).2 (cdagger (eigh n A).2)).entry i j = (cId n).entry i j) :
    ∀ ish < n_sh,
      mAllclose
        (cMul
          ((find_rot_mat RotMatType.hloc_diag eigh n_sh dims shMap ham0).rot_mat.getD ish (cId 0))
          (cdagger
            ((find_rot_mat RotMatType.hloc_diag eigh n_sh dims shMap ham0).rot_mat.getD ish (cId 0))))
        (cId (dims ish)) w90zero := by
  intro ish hish
  have hnotbad : ¬ (ham0.rows ≠ ham0.cols ∨
      ham0.rows ≠ ∑ jsh ∈ Finset.range n_sh, dims jsh) := by
    push_neg
    exact ⟨hsq, hdim⟩
  rw [find_rot_mat, if_neg hnotbad, if_neg (by decide)]
  simp only []
  rw [getD_map_range n_sh ish _ (cId 0) hish]
  have hblk := ham0_blk_isHermitian dims n_sh ham0 hherm hdim ish hish
  obtain ⟨hrows, hcols, hunit⟩ :=
    heigh (dims ish) (ham0_blk dims ham0 ish) hblk rfl rfl
  have hrot : rotOf RotMatType.hloc_diag eigh dims shMap ham0 ish =
      (eigh (dims ish) (ham0_blk dims ham0 ish)).2 := rfl
  rw [hrot]
  refine ⟨by rw [cMul, cId]; exact hrows, by rw [cMul, cdagger, cId]; exact hrows, ?_⟩
  intro i hi j hj
  have hi2 : i < dims ish := by
    rw [cMul] at hi
    rw [← hrows]
    exact hi
  have hj2 : j < dims ish := by
    rw [cMul, cdagger] at hj
    rw [← hrows]
    exact hj
  rw [hunit i hi2 j hj2, sub_self]
  simp [w90zero_pos.le]

/-- C10: on a non-square `ham0`, or one whose dimension is not the sum of
the declared shell dimensions, `find_rot_mat` (any policy, any
diagonalizer) returns immediately with a cleared success flag and one
identity rotation per shell of the declared dimension; the result does not
depend on the `eigh` oracle, i.e. no diagonalization or validation runs. -/
theorem C10_bad_shape_early_return (t : RotMatType) (eigh : EighFn) (n_sh : ℕ)
    (dims shMap : ℕ → ℕ) (ham0 : CMatrix)
    (hbad : ham0.rows ≠ ham0.cols ∨
      ham0.rows ≠ ∑ ish ∈ Finset.range n_sh, dims ish) :
    ¬ (find_rot_mat t eigh n_sh dims shMap ham0).succeeded ∧
    (find_rot_mat t eigh n_sh dims shMap ham0).rot_mat =
      (List.range n_sh).map fun ish => cId (dims ish) := by
  rw [find_rot_mat, if_pos hbad]
  exact ⟨not_false, rfl⟩

/-- Witness for C10: a 1×1 `ham0` against a declared shell dimension of 2. -/
theorem C10_bad_shape_early_return_witness :
    ¬ (find_rot_mat RotMatType.hloc_diag (fun n _ => (fun _ => 0, cId n)) 1
        (fun _ => 2) (fun _ => 0) (cId 1)).succeeded ∧
    (find_rot_mat RotMatType.hloc_diag (fun n _ => (fun _ => 0, cId n)) 1
        (fun _ => 2) (fun _ => 0) (cId 1)).rot_mat =
      (List.range 1).map fun ish => cId 2 :=
  C10_bad_shape_early_return RotMatType.hloc_diag
    (fun n _ => (fun _ => 0, cId n)) 1 (fun _ => 2) (fun _ => 0) (cId 1)
    (Or.inr (by simp [cId]))

/-- C5: when two shells are declared equivalent but an eigenvalue of one
differs from its representative's by more than the tolerance,
`find_rot_mat` (diagonalizing or combined policy, well-shaped input,
shape-correct `eigh` oracle) returns with the success flag cleared, without
aborting: the rotation list still has one matrix per shell, each square of
that shell's declared dimension. -/
theorem C5_eigval_mismatch (t : RotMatType) (eigh : EighFn) (n_sh : ℕ)
    (dims shMap : ℕ → ℕ) (ham0 : CMatrix)
    (ht : t = RotMatType.hloc_diag ∨ t = RotMatType.wannier)
    (hsq : ham0.rows = ham0.cols)
    (hdim : ham0.rows = ∑ ish ∈ Finset.range n_sh, dims ish)
    (hshape : ∀ n A, (eigh n A).2.rows = n ∧ (eigh n A).2.cols = n)
    (hmis : ∃ ish < n_sh, shMap ish ≠ ish ∧ ∃ i < dims ish,
      w90zero < |eigval_sh eigh dims ham0 ish i -
        eigval_sh eigh dims ham0 (shMap ish) i|) :
    ¬ (find_rot_mat t eigh n_sh dims shMap ham0).succeeded ∧
    (find_rot_mat t eigh n_sh dims shMap ham0).rot_mat.length = n_sh ∧
    ∀ ish < n_sh,
      ((find_rot_mat t eigh n_sh dims shMap ham0).rot_mat.getD ish (cId 0)).rows
        = dims ish ∧
      ((find_rot_mat t eigh n_sh dims shMap ham0).rot_mat.getD ish (cId 0)).cols
        = dims ish := by
  have hnotbad : ¬ (ham0.rows ≠ ham0.cols ∨
      ham0.rows ≠ ∑ jsh ∈ Finset.range n_sh, dims jsh) := by
    push_neg
    exact ⟨hsq, hdim⟩
  have hnone : t ≠ RotMatType.rot_none := by
    rcases ht with h | h <;> subst h <;> decide
  rw [find_rot_mat, if_neg hnotbad, if_neg hnone]
  refine ⟨?_, ?_, ?_⟩
  · intro hsucc
    obtain ⟨ish, hlt, _, i, hilt, hgt⟩ := hmis
    have hchk := (succ_flag_iff t eigh n_sh dims shMap ham0).mp hsucc ish hlt
    exact absurd (hchk.1 i hilt) (not_le.mpr hgt)
  · simp
  · intro ish hish
    rw [getD_map_range n_sh ish _ (cId 0) hish]
    rcases ht with h | h <;> subst h
    · exact ⟨(hshape _ _).1, (hshape _ _).2⟩
    · rw [rotOf]
      by_cases hg : (eigvec_sh eigh dims ham0 ish).cols =
          (cdagger (eigvec_sh eigh dims ham0 (shMap ish))).rows
      · rw [if_pos hg]
        have hdd : dims (shMap ish) = dims ish := by
          have h1 : (eigvec_sh eigh dims ham0 ish).cols = dims ish :=
            (hshape _ _).2
          have h2 : (cdagger (eigvec_sh eigh dims ham0 (shMap ish))).rows =
              dims (shMap ish) := (hshape _ _).2
          rw [h1, h2] at hg
          exact hg.symm
        refine ⟨(hshape _ _).1, ?_⟩
        have hc : (cMul (eigvec_sh eigh dims ham0 ish)
            (cdagger (eigvec_sh eigh dims ham0 (shMap ish)))).cols =
            (eigvec_sh eigh dims ham0 (shMap ish)).rows := rfl
        have h3 : (eigvec_sh eigh dims ham0 (shMap ish)).rows =
            dims (shMap ish) := (hshape _ _).1
        rw [hc, h3, hdd]
      · rw [if_neg hg]
        exact ⟨rfl, rfl⟩

lemma egEigh_eigval_zero : eigval_sh egEigh (fun _ => 1) egHam0 0 0 = 1 / 2 := by
  rw [eigval_sh, egEigh]
  simp [ham0_blk, offs, egHam0]

lemma egEigh_eigval_one : eigval_sh egEigh (fun _ => 1) egHam0 1 0 = 9 / 10 := by
  rw [eigval_sh, egEigh]
  simp [ham0_blk, offs, egHam0, Finset.sum_range_one]

lemma egEigh_mismatch :
    w90zero < |eigval_sh egEigh (fun _ => 1) egHam0 1 0 -
      eigval_sh egEigh (fun _ => 1) egHam0 0 0| := by
  rw [egEigh_eigval_zero, egEigh_eigval_one, w90zero]
  rw [show (9 / 10 - 1 / 2 : ℝ) = 2 / 5 by norm_num]
  rw [abs_of_pos (by norm_num : (0 : ℝ) < 2 / 5)]
  norm_num

/-- Witness for C5 on the two-shell fixture with eigenvalues `1/2` vs `9/10`
under the diagonalizing policy. -/
theorem C5_eigval_mismatch_witness :
    ¬ (find_rot_mat RotMatType.hloc_diag egEigh 2 (fun _ => 1) (fun _ => 0)
        egHam0).succeeded ∧
    (find_rot_mat RotMatType.hloc_diag egEigh 2 (fun _ => 1) (fun _ => 0)
        egHam0).rot_mat.length = 2 ∧
    ∀ ish < 2,
      ((find_rot_mat RotMatType.hloc_diag egEigh 2 (fun _ => 1) (fun _ => 0)
          egHam0).rot_mat.getD ish (cId 0)).rows = 1 ∧
      ((find_rot_mat RotMatType.hloc_diag egEigh 2 (fun _ => 1) (fun _ => 0)
          egHam0).rot_mat.getD ish (cId 0)).cols = 1 :=
  C5_eigval_mismatch RotMatType.hloc_diag egEigh 2 (fun _ => 1) (fun _ => 0)
    egHam0 (Or.inl rfl) rfl (by simp [egHam0])
    (fun n A => ⟨rfl, rfl⟩)
    ⟨1, by decide, by decide, 0, by decide, egEigh_mismatch⟩

/-- C6 (amended): under the diagonalizing and combined policies (and a
well-shaped `ham0`) the success flag of `find_rot_mat` holds exactly when,
for every shell, the eigenvalue-agreement, unitarity and block-mapping
checks all pass; under the `'none'` policy the solver returns `True`
immediately and performs no validation (see `C6_none_skips_validation`). -/
theorem C6_validation_amended (t : RotMatType) (eigh : EighFn) (n_sh : ℕ)
    (dims shMap : ℕ → ℕ) (ham0 : CMatrix)
    (ht : t = RotMatType.hloc_diag ∨ t = RotMatType.wannier)
    (hsq : ham0.rows = ham0.cols)
    (hdim : ham0.rows = ∑ ish ∈ Finset.range n_sh, dims ish) :
    ((find_rot_mat t eigh n_sh dims shMap ham0).succeeded ↔
      ∀ ish < n_sh,
        eig_check eigh dims shMap ham0 ish ∧
        unit_check t eigh dims shMap ham0 ish ∧
        map_check t eigh dims shMap ham0 ish) := by
  have hnotbad : ¬ (ham0.rows ≠ ham0.cols ∨
      ham0.rows ≠ ∑ jsh ∈ Finset.range n_sh, dims jsh) := by
    push_neg
    exact ⟨hsq, hdim⟩
  have hnone : t ≠ RotMatType.rot_none := by
    rcases ht with h | h <;> subst h <;> decide
  rw [find_rot_mat, if_neg hnotbad, if_neg hnone]
  exact succ_flag_iff t eigh n_sh dims shMap ham0

/-- Witness for the amended C6 at the two-shell fixture under the
diagonalizing policy: the success flag is equivalent to all checks
passing. -/
theorem C6_validation_amended_witness :
    ((find_rot_mat RotMatType.hloc_diag egEigh 2 (fun _ => 1) (fun _ => 0)
        egHam0).succeeded ↔
      ∀ ish < 2,
        eig_check egEigh (fun _ => 1) (fun _ => 0) egHam0 ish ∧
        unit_check RotMatType.hloc_diag egEigh (fun _ => 1) (fun _ => 0) egHam0 ish ∧
        map_check RotMatType.hloc_diag egEigh (fun _ => 1) (fun _ => 0) egHam0 ish) :=
  C6_validation_amended RotMatType.hloc_diag egEigh 2 (fun _ => 1) (fun _ => 0)
    egHam0 (Or.inl rfl) rfl (by simp [egHam0])

/-- C6 (counterexample to the claim as stated): under the `'none'` policy
`find_rot_mat` returns early with `succeeded = True` (source lines 642-646)
without validating anything — here on an input whose eigenvalue-agreement
condition between the two declared-equivalent shells is violated. -/
theorem C6_none_skips_validation :
    (find_rot_mat RotMatType.rot_none egEigh 2 (fun _ => 1) (fun _ => 0)
        egHam0).succeeded ∧
    ¬ eig_check egEigh (fun _ => 1) (fun _ => 0) egHam0 1 := by
  constructor
  · rw [find_rot_mat, if_neg (by push_neg; exact ⟨rfl, by simp [egHam0]⟩),
      if_pos rfl]
    trivial
  · intro hchk
    exact absurd (hchk 0 Nat.one_pos) (not_le.mpr egEigh_mismatch)

lemma cId_unitary (n : ℕ) : ∀ i < n, ∀ j < n,
    (cMul (cId n) (cdagger (cId n))).entry i j = (cId n).entry i j := by
  intro i hi j hj
  show (∑ k ∈ Finset.range n,
    (if i = k then (1 : ℂ) else 0) * starRingEnd ℂ (if j = k then (1 : ℂ) else 0))
      = if i = j then 1 else 0
  have hsummand : ∀ k ∈ Finset.range n,
      (if i = k then (1 : ℂ) else 0) * starRingEnd ℂ (if j = k then (1 : ℂ) else 0)
        = if i = k then (if j = k then (1 : ℂ) else 0) else 0 := by
    intro k _
    by_cases h : i = k <;> by_cases h2 : j = k <;> simp [h, h2]
  rw [Finset.sum_congr rfl hsummand, Finset.sum_ite_eq (Finset.range n) i
    (fun k => if j = k then (1 : ℂ) else 0), if_pos (Finset.mem_range.mpr hi)]
  by_cases hij : i = j
  · subst hij
    simp
  · rw [if_neg fun h => hij h.symm, if_neg hij]

/-- Witness for C4: a single 1×1 Hermitian shell with the fixture
diagonalizer, whose returned rotation is exactly unitary. -/
theorem C4_hloc_diag_unitary_witness :
    mAllclose
      (cMul
        ((find_rot_mat RotMatType.hloc_diag egEigh 1 (fun _ => 1) (fun _ => 0)
          (⟨1, 1, fun _ _ => ((1 / 2 : ℝ) : ℂ)⟩ : CMatrix)).rot_mat.getD 0 (cId 0))
        (cdagger
          ((find_rot_mat RotMatType.hloc_diag egEigh 1 (fun _ => 1) (fun _ => 0)
            (⟨1, 1, fun _ _ => ((1 / 2 : ℝ) : ℂ)⟩ : CMatrix)).rot_mat.getD 0 (cId 0))))
      (cId 1) w90zero :=
  C4_hloc_diag_unitary egEigh 1 (fun _ => 1) (fun _ => 0)
    (⟨1, 1, fun _ _ => ((1 / 2 : ℝ) : ℂ)⟩ : CMatrix)
    ⟨rfl, fun i _ j _ => Complex.conj_ofReal (1 / 2)⟩ rfl (by simp)
    (fun n A _ _ _ => ⟨rfl, rfl, cId_unitary n⟩) 0 Nat.one_pos

lemma scenario_kpts_eq : Scenario.kpts = [((0 : ℚ), (0 : ℚ), (0 : ℚ))] := by
  rw [Scenario.kpts, kmesh_build]
  norm_num [kmeshList, List.range_succ]

lemma scenario_n_k_eq : Scenario.n_k = 1 := rfl

lemma scenario_n_bands_max_eq : Scenario.n_bands_max = 1 := rfl

lemma scenario_hamr_entry (fermi : ℚ) :
    (Scenario.hamr fermi 0).entry 0 0 =
      ⟨((1 / 2 - fermi : ℚ) : ℝ), ((0 : ℚ) : ℝ)⟩ := by
  rw [Scenario.hamr, h_of_r_read]
  show h_entry fermi (recordAt Scenario.recs 1 0 0 0) 0 0 = _
  rw [h_entry, if_pos ⟨⟨rfl, rfl, rfl⟩, rfl⟩]
  rfl

lemma kdot_rzero (kp : ℚ × ℚ × ℚ) : kdot kp (0, 0, 0) = 0 := by
  norm_num [kdot]

lemma phaseFactor_rzero (kp : ℚ × ℚ × ℚ) : phaseFactor kp (0, 0, 0) = 1 := by
  rw [phaseFactor, kdot_rzero]
  norm_num

lemma scenario_hopping_entry (fermi : ℚ) :
    ((Scenario.hopping fermi).getD 0 (cId 0)).entry 0 0 =
      (((1 / 2 - fermi : ℚ) : ℝ) : ℂ) := by
  rw [Scenario.hopping, scenario_n_bands_max_eq, hopping_wannier_mode,
    if_neg (lt_irrefl 1), scenario_kpts_eq, fourier_ham]
  rw [List.map_cons, List.map_nil, List.getD_cons_zero]
  show (∑ ir ∈ Finset.range 1,
      phaseFactor ((0 : ℚ), (0 : ℚ), (0 : ℚ)) (rvec_read Scenario.recs 1 ir) /
        ((rdeg_read Scenario.degs ir : ℝ) : ℂ) *
        (Scenario.hamr fermi ir).entry 0 0) = _
  rw [Finset.sum_range_one]
  have hrv : rvec_read Scenario.recs 1 0 = ((0 : ℤ), (0 : ℤ), (0 : ℤ)) := rfl
  have hrd : rdeg_read Scenario.degs 0 = 1 := rfl
  rw [hrv, hrd, phaseFactor_rzero, scenario_hamr_entry]
  have hone : (((1 : ℤ) : ℝ) : ℂ) = 1 := by norm_num
  rw [hone, div_one, one_mul]
  apply Complex.ext
  · show ((1 / 2 - fermi : ℚ) : ℝ) = ((((1 / 2 - fermi : ℚ) : ℝ) : ℂ)).re
    rw [Complex.ofReal_re]
  · show ((0 : ℚ) : ℝ) = ((((1 / 2 - fermi : ℚ) : ℝ) : ℂ)).im
    rw [Complex.ofReal_im, Rat.cast_zero]

lemma scenario_hopping_length (fermi : ℚ) : (Scenario.hopping fermi).length = 1 := by
  rw [Scenario.hopping, scenario_n_bands_max_eq, hopping_wannier_mode,
    if_neg (lt_irrefl 1), scenario_kpts_eq, fourier_ham]
  rfl

/-- C1: a parsed record whose 1-based orbital indices match its loop position
(the consistent case, which the reader checks at source line 537) has the
Fermi energy subtracted from its real part exactly when its R-vector is
`(0,0,0)` and its two 1-based orbital indices are equal; every other record
is stored verbatim as `complex(re, im)`.  The end-to-end consequence on the
one-orbital, single-R-vector scenario (`Scenario` below) is stated with the
scenario theorems `C1_fermi_rule_witness` and `C2_end_to_end`. -/
theorem C1_fermi_rule (fermi : ℚ) (rec : HrRecord) (ii jj : ℕ)
    (hi : rec.i1 = (ii : ℤ) + 1) (hj : rec.j1 = (jj : ℤ) + 1) :
    ((rec.r1 = 0 ∧ rec.r2 = 0 ∧ rec.r3 = 0) ∧ rec.i1 = rec.j1 →
       h_entry fermi rec ii jj = ⟨((rec.re - fermi : ℚ) : ℝ), ((rec.im : ℚ) : ℝ)⟩) ∧
    (¬ ((rec.r1 = 0 ∧ rec.r2 = 0 ∧ rec.r3 = 0) ∧ rec.i1 = rec.j1) →
       h_entry fermi rec ii jj = ⟨((rec.re : ℚ) : ℝ), ((rec.im : ℚ) : ℝ)⟩) ∧
    ((Scenario.hopping 0).getD 0 (cId 0)).entry 0 0 = ((1 / 2 : ℝ) : ℂ) ∧
    ((Scenario.hopping (1 / 5)).getD 0 (cId 0)).entry 0 0 = ((3 / 10 : ℝ) : ℂ) := by
  have hidx : rec.i1 = rec.j1 ↔ ii = jj := by
    rw [hi, hj]
    constructor
    · intro h
      have : (ii : ℤ) = (jj : ℤ) := by omega
      exact_mod_cast this
    · intro h
      rw [h]
  refine ⟨?_, ?_, ?_, ?_⟩
  · rintro ⟨hr0, hij⟩
    rw [h_entry, if_pos ⟨hr0, hidx.mp hij⟩]
  · intro hneg
    rw [h_entry, if_neg]
    intro hcond
    exact hneg ⟨hcond.1, hidx.mpr hcond.2⟩
  · rw [scenario_hopping_entry]
    norm_num
  · rw [scenario_hopping_entry]
    norm_num

/-- Witness for C1: the scenario record at Fermi energy `1/5` is an on-site
diagonal record, so its stored value is `(1/2 - 1/5, 0)`. -/
theorem C1_fermi_rule_witness :
    h_entry (1 / 5) ⟨0, 0, 0, 1, 1, 1 / 2, 0⟩ 0 0 =
      ⟨((1 / 2 - 1 / 5 : ℚ) : ℝ), ((0 : ℚ) : ℝ)⟩ :=
  (C1_fermi_rule (1 / 5) ⟨0, 0, 0, 1, 1, 1 / 2, 0⟩ 0 0 (by decide) (by decide)).1
    ⟨⟨rfl, rfl, rfl⟩, rfl⟩

lemma scenario_hopping_shape (fermi : ℚ) :
    ((Scenario.hopping fermi).getD 0 (cId 0)).rows = 1 ∧
    ((Scenario.hopping fermi).getD 0 (cId 0)).cols = 1 := by
  rw [Scenario.hopping, scenario_n_bands_max_eq, hopping_wannier_mode,
    if_neg (lt_irrefl 1), scenario_kpts_eq, fourier_ham]
  exact ⟨rfl, rfl⟩

/-- C2: in the end-to-end scenario (one 1×1 correlated shell, one R-vector
`(0,0,0)` of degeneracy 1 with element `(0.5, 0.0)`, Fermi energy 0,
Wannier-basis mode, 1×1×1 mesh), the hopping tensor has extents
`n_k = n_spin = max(n_orbitals) = 1` with single value `0.5`, and the
rotation list holds the single 1×1 matrix `[[1]]` — given that the
diagonalizer returns the 1×1 eigenvector matrix `[[1]]` on the scenario's
on-site block, as `numpy.linalg.eigh` does. -/
theorem C2_end_to_end (eigh : EighFn)
    (h1 : (eigh 1 Scenario.blk).2.rows = 1)
    (h2 : (eigh 1 Scenario.blk).2.cols = 1)
    (h3 : (eigh 1 Scenario.blk).2.entry 0 0 = 1) :
    Scenario.n_k = 1 ∧
    n_spin = 1 ∧
    Scenario.n_bands_max = 1 ∧
    (Scenario.hopping 0).length = 1 ∧
    ((Scenario.hopping 0).getD 0 (cId 0)).rows = 1 ∧
    ((Scenario.hopping 0).getD 0 (cId 0)).cols = 1 ∧
    ((Scenario.hopping 0).getD 0 (cId 0)).entry 0 0 = ((1 / 2 : ℝ) : ℂ) ∧
    (Scenario.rot eigh).length = 1 ∧
    ((Scenario.rot eigh).getD 0 (cId 0)).rows = 1 ∧
    ((Scenario.rot eigh).getD 0 (cId 0)).cols = 1 ∧
    ((Scenario.rot eigh).getD 0 (cId 0)).entry 0 0 = 1 := by
  have hnb : ¬ (Scenario.ham0.rows ≠ Scenario.ham0.cols ∨
      Scenario.ham0.rows ≠ ∑ ish ∈ Finset.range 1, (fun _ => 1) ish) := by
    push_neg
    exact ⟨rfl, by simp [Scenario.ham0]⟩
  have hrotm : Scenario.rot eigh = [(eigh 1 Scenario.blk).2] := by
    rw [Scenario.rot, find_rot_mat, if_neg hnb, if_neg (by decide)]
    rfl
  refine ⟨rfl, rfl, rfl, scenario_hopping_length 0,
    (scenario_hopping_shape 0).1, (scenario_hopping_shape 0).2, ?_, ?_, ?_, ?_, ?_⟩
  · rw [scenario_hopping_entry]
    norm_num
  · rw [hrotm]
    rfl
  · rw [hrotm, List.getD_cons_zero]
    exact h1
  · rw [hrotm, List.getD_cons_zero]
    exact h2
  · rw [hrotm, List.getD_cons_zero]
    exact h3

/-- Witness for C2 with the concrete identity diagonalizer. -/
theorem C2_end_to_end_witness :
    ((Scenario.hopping 0).getD 0 (cId 0)).entry 0 0 = ((1 / 2 : ℝ) : ℂ) ∧
    ((Scenario.rot (fun n _ => (fun _ => 0, cId n))).getD 0 (cId 0)).entry 0 0 = 1 :=
  ⟨(C2_end_to_end (fun n _ => (fun _ => 0, cId n)) rfl rfl rfl).2.2.2.2.2.2.1,
   (C2_end_to_end (fun n _ => (fun _ => 0, cId n)) rfl rfl
     rfl).2.2.2.2.2.2.2.2.2.2⟩

end W90
